import Mathlib

/-!
A shallow embedding of the core of the `astock_single` backtesting program
(`data.py`, `strategy.py`, `backtest.py`) and proofs of the specification
claims about it.

Modeling conventions:
* Python floats are modeled as exact rationals (`ℚ`); dates (pandas
  timestamps, compared with `<=` and subtracted to obtain calendar days)
  are modeled as integers (`ℤ`, a day number).
* A pandas `DataFrame` of K-line bars is a `List Bar` ordered as stored;
  a `None` frame is modeled by the empty list (every lookup in the source
  returns `None` both for a `None` frame and for an empty one).
* pandas' two failure modes are kept distinct, as in the source: a
  missing row (`None` in Python) is `none`, while an incomplete rolling
  window produces the float `NaN` (`PyFloat.nan`).  A `NaN` passes the
  source's only-`None` early check and is substituted into the `eval`
  text as `str(nan) = "nan"`, an *undefined name* — it raises
  `NameError` only when evaluation actually touches it, so an `or`
  whose other disjunct is true can still yield `True`.  The modeled
  evaluator reproduces this with Python's short-circuit order.
* Python string scanning (`re` patterns, `str.replace`, `str.join`) is
  implemented character by character over `List Char`.  Recursions that
  are not structural take an explicit fuel argument (always instantiated
  with a bound that the scan cannot exceed) so every definition reduces
  inside the kernel.
-/

namespace AStock

/-- `[0-9]` as used by the `\d` regex class. -/
def isDigitC (c : Char) : Bool := c.isDigit

/-- Characters allowed by the `[^()]` regex class. -/
def innerOK (c : Char) : Bool := !(c = '(' || c = ')')

/-- `[DWM]`: the granularity letters of the DSL. -/
def isDWM (c : Char) : Bool := c = 'D' || c = 'W' || c = 'M'

/-- Value of a decimal digit string, as `int(...)` computes it. -/
def digitsToNat (ds : List Char) : Nat :=
  ds.foldl (fun a c => 10 * a + (c.toNat - 48)) 0

/-- The decimal digit character for `n < 10`. -/
def digitChar (n : Nat) : Char := Char.ofNat (48 + n)

/-- Decimal rendering of a natural number (fuelled; `n + 1` steps always
suffice since the number of digits of `n` is at most `n + 1`). -/
def natDigitsAux : Nat → Nat → List Char
  | 0, _ => []
  | f + 1, n => if n < 10 then [digitChar n] else natDigitsAux f (n / 10) ++ [digitChar (n % 10)]

/-- Decimal rendering of a natural number, as `f"{n}"` renders it. -/
def natDigits (n : Nat) : List Char := natDigitsAux (n + 1) n

/-- The exact rational denoted by an integer part and a fraction part,
as `float("I.F")` denotes (modulo binary rounding, which we model away). -/
def qOfDigits (intPart fracPart : List Char) : ℚ :=
  (digitsToNat intPart : ℚ) + (digitsToNat fracPart : ℚ) / (10 : ℚ) ^ fracPart.length

/-- Python `int(...)` on a rational: truncation toward zero. -/
def int_trunc (q : ℚ) : ℤ := if 0 ≤ q then ⌊q⌋ else ⌈q⌉

/-- Round-half-even on a rational, as Python's builtin `round` rounds. -/
def roundHalfEven (q : ℚ) : ℤ :=
  if q - ⌊q⌋ = 1 / 2 then (if ⌊q⌋ % 2 = 0 then ⌊q⌋ else ⌊q⌋ + 1) else round q

/-- `round(x, 2)` on a rational. -/
def pyround2 (q : ℚ) : ℚ := (roundHalfEven (100 * q) : ℚ) / 100

/-- `round(x, 1)` on a rational. -/
def pyround1 (q : ℚ) : ℚ := (roundHalfEven (10 * q) : ℚ) / 10

/-- One K-line bar.  Only the fields the modeled core ever reads are kept:
`date`, `close` (from which every rolling mean is derived) and
`pct_change`.  `open/high/low/volume/amount` are never read by the
backtest path and are omitted. -/
structure Bar where
  date : ℤ
  close : ℚ
  pctChange : ℚ
  deriving DecidableEq

/-- The `kline_data` dictionary restricted to its three frames.  A missing
(`None`) weekly or monthly frame is the empty list. -/
structure Snapshot where
  daily : List Bar
  weekly : List Bar
  monthly : List Bar
  deriving DecidableEq

/-- `df[df['date'] <= date]`: the truncation filter used everywhere. -/
def upTo (d : ℤ) (l : List Bar) : List Bar := l.filter (fun b => decide (b.date ≤ d))

/-- A Python float as this program can observe it: a numeric value or
`NaN` (the value pandas stores in a rolling-mean column before the
window is full). -/
inductive PyFloat where
  | num (q : ℚ)
  | nan
  deriving DecidableEq

/-- The rolling mean `df['close'].rolling(window=p).mean()` read at
positional index `i`: the numeric mean when the window is full
(`p ≤ i + 1`), the float `NaN` otherwise.  `p = 0` makes pandas raise;
it is modeled as `NaN` (unreachable from the claims).  Because the
frames are ordered by date, reading the precomputed column of the full
frame at a row of a date-truncated view and recomputing the column on
the view agree, so one positional definition models both code paths of
`get_ma_value` (`ma_col` present / recomputed). -/
def rollingMA (p : Nat) (closes : List ℚ) (i : Nat) : PyFloat :=
  if p = 0 then .nan
  else if i + 1 < p then .nan
  else .num ((((closes.drop (i + 1 - p)).take p).foldl (· + ·) 0) / (p : ℚ))

/-- `get_ma_value(df, date, period, offset)` from `data.py`.  `None`
(`none`) only when the frame is `None`/empty or the filtered frame has
at most `offset` rows; otherwise the positional column value, which is
the float `NaN` when the rolling window is incomplete.  The dead
`idx < 0` branch of the source (unreachable because `len(df_filtered) >
offset` already holds) is not represented. -/
def get_ma_value (df : List Bar) (d : ℤ) (period offset : Nat) : Option PyFloat :=
  if df = [] then none
  else
    let f := upTo d df
    if f.length ≤ offset then none
    else some (rollingMA period (f.map (·.close)) (f.length - 1 - offset))

/-- `get_close_price(df, date, offset)` from `data.py`. -/
def get_close_price (df : List Bar) (d : ℤ) (offset : Nat) : Option ℚ :=
  if df = [] then none
  else
    let f := upTo d df
    if f.length ≤ offset then none
    else (f[f.length - 1 - offset]?).map (·.close)

/-- `get_pct_change(df, date)` from `data.py`.  The fallback that
recomputes the change from two closes runs only when the frame has no
`pct_change` column, which never happens on the data this program
builds; the modeled bars always carry the column. -/
def get_pct_change (df : List Bar) (d : ℤ) : Option ℚ :=
  if df = [] then none
  else
    match (upTo d df).getLast? with
    | none => none
    | some r => some r.pctChange

/-! ### The moving-average term pattern `([DWM])(\d+)MA(?:-(\d+))?` -/

/-- Attempt to match the `ma_pattern` regex at the head of the input.
Returns the granularity letter, the period digits, the optional offset
digits, and the unconsumed remainder.  The regex is deterministic here:
`\d+` is maximal (the following `MA` contains no digit) and the optional
`-(\d+)` group participates exactly when a `-` followed by a digit
follows `MA`. -/
def maMatchAt : List Char → Option (Char × List Char × Option (List Char) × List Char)
  | [] => none
  | c :: r1 =>
    if isDWM c then
      let per := r1.takeWhile isDigitC
      if per.isEmpty then none
      else
        match r1.drop per.length with
        | c1 :: c2 :: r2 =>
          if c1 = 'M' && c2 = 'A' then
            match r2 with
            | c3 :: r3 =>
              if c3 = '-' then
                if (r3.takeWhile isDigitC).isEmpty then some (c, per, none, r2)
                else some (c, per, some (r3.takeWhile isDigitC),
                  r3.drop (r3.takeWhile isDigitC).length)
              else some (c, per, none, r2)
            | [] => some (c, per, none, r2)
          else none
        | _ => none
    else none

/-- The exact text a successful `ma_pattern` match consumed. -/
def renderMatch (g : Char) (per : List Char) (off : Option (List Char)) : List Char :=
  g :: per ++ ['M', 'A'] ++ (match off with | some o => '-' :: o | none => [])

/-- `f"{prefix}{period}MA-{new_offset}"`: the replacement text built by
`add_offset` in `expand_repeat_expression`. -/
def renderMA (g : Char) (per : List Char) (off : Nat) : List Char :=
  g :: per ++ ['M', 'A', '-'] ++ natDigits off

/-- One pass of `self.ma_pattern.sub(add_offset, inner_expr)`: replace
every (leftmost, non-overlapping) MA term, adding `i` to its offset
(`0` when it has none).  Fuelled; each step consumes at least one
character, so fuel `= length` suffices. -/
def maSubGo (i : Nat) : Nat → List Char → List Char
  | 0, cs => cs
  | _ + 1, [] => []
  | f + 1, c :: cs =>
    match maMatchAt (c :: cs) with
    | some (g, per, off, rest) =>
      renderMA g per ((match off with | some o => digitsToNat o | none => 0) + i) ++
        maSubGo i f rest
    | none => c :: maSubGo i f cs

/-- `add_offset` substitution over a whole expression. -/
def maOffsetSub (i : Nat) (cs : List Char) : List Char := maSubGo i cs.length cs

/-- All texts matched by `self.ma_pattern.finditer(expanded_expr)`, in
scan order (fuelled like `maSubGo`). -/
def maScanGo : Nat → List Char → List (List Char)
  | 0, _ => []
  | _ + 1, [] => []
  | f + 1, c :: cs =>
    match maMatchAt (c :: cs) with
    | some (g, per, off, rest) => renderMatch g per off :: maScanGo f rest
    | none => maScanGo f cs

/-- The list of MA-term texts occurring in an expression. -/
def maScanAll (cs : List Char) : List (List Char) := maScanGo cs.length cs

/-! ### The repetition pattern `\(([^()]+)\)\s*\*\s*(\d+)` -/

/-- Attempt to match the `repeat_pattern` regex at the head of the input.
Returns the parenthesized body, the count digits and the unconsumed
remainder.  Deterministic: `[^()]+` is maximal (it cannot cross the
closing `)`), and both `\s*` and `\d+` are maximal. -/
def repeatMatchAt : List Char → Option (List Char × List Char × List Char)
  | [] => none
  | c :: r1 =>
    if c = '(' then
      if (r1.takeWhile innerOK).isEmpty then none
      else
        match r1.drop (r1.takeWhile innerOK).length with
        | c1 :: r3 =>
          if c1 = ')' then
            match r3.dropWhile Char.isWhitespace with
            | c2 :: r5 =>
              if c2 = '*' then
                if ((r5.dropWhile Char.isWhitespace).takeWhile isDigitC).isEmpty then none
                else some (r1.takeWhile innerOK,
                  (r5.dropWhile Char.isWhitespace).takeWhile isDigitC,
                  (r5.dropWhile Char.isWhitespace).drop
                    ((r5.dropWhile Char.isWhitespace).takeWhile isDigitC).length)
              else none
            | [] => none
          else none
        | [] => none
    else none

/-- The `expanded_parts` list built by `replace_repeat`: part `0` is the
body unchanged, part `i > 0` is the body with every MA offset increased
by `i`, each wrapped in parentheses. -/
def expandParts (inner : List Char) (n : Nat) : List (List Char) :=
  (List.range n).map fun i =>
    if i = 0 then '(' :: inner ++ [')'] else '(' :: maOffsetSub i inner ++ [')']

/-- `" && ".join(parts)`. -/
def joinAnd : List (List Char) → List Char
  | [] => []
  | [p] => p
  | p :: q :: rest => p ++ ' ' :: '&' :: '&' :: ' ' :: joinAnd (q :: rest)

/-- One pass of `self.repeat_pattern.sub(replace_repeat, expression)`
(fuelled; each step consumes at least one character). -/
def repeatSubGo : Nat → List Char → List Char
  | 0, cs => cs
  | _ + 1, [] => []
  | f + 1, c :: cs =>
    match repeatMatchAt (c :: cs) with
    | some (inner, ds, rest) =>
      joinAnd (expandParts inner (digitsToNat ds)) ++ repeatSubGo f rest
    | none => c :: repeatSubGo f cs

/-- One full substitution pass over an expression. -/
def repeatSubPass (cs : List Char) : List Char := repeatSubGo cs.length cs

/-- Whether the repetition regex matches anywhere in the input. -/
def containsRepeatMatch : List Char → Bool
  | [] => false
  | c :: cs => (repeatMatchAt (c :: cs)).isSome || containsRepeatMatch cs

/-- The `while prev_expression != expression` fixpoint loop of
`expand_repeat_expression`, fuelled.  The fuel bounds the number of
substitution passes; `length + 1` passes cover every input on which the
source loop stabilizes within that many rewrites (a pass that changes
nothing ends the loop immediately). -/
def expandLoop : Nat → List Char → List Char
  | 0, s => s
  | f + 1, s => if repeatSubPass s = s then s else expandLoop f (repeatSubPass s)

/-- `StrategyParser.expand_repeat_expression` from `strategy.py`. -/
def expand_repeat_expression (s : List Char) : List Char := expandLoop (s.length + 1) s

/-! ### The modeled `eval`

`evaluate_kline_strategy` substitutes numbers for the MA terms of the
expanded expression and hands the text to Python's `eval`; any raised
exception is caught and turned into `False`.  Following §9 of the design
notes, the dynamic evaluation is modeled as a typed abstract syntax tree
built by a recursive-descent parser of the Python expression grammar
fragment the DSL can produce (comparisons — chained as in Python — over
moving-average terms and numeric literals, `and`/`or`/`not` with Python
truthiness and operand-returning semantics, `+ - * /` arithmetic, and
parentheses), evaluated by a pure recursive function.  Text outside this
fragment makes `eval` raise (`SyntaxError`/`NameError`), modeled by the
parser or evaluator returning `none`; both produce `False`.  Two known,
deliberate gaps, neither reachable from the claims under verification:
the source substitutes values *textually*, so a term that is a proper
substring of a later term (e.g. `D5MA` before `D5MA-1`) can corrupt the
later term before its own substitution — the model resolves each parsed
term directly; and exotic literal forms such as `.5` are not parsed. -/

inductive PyExpr where
  | lit (q : ℚ)
  | maTerm (t : List Char)
  | neg (e : PyExpr)
  | bnot (e : PyExpr)
  | andE (a b : PyExpr)
  | orE (a b : PyExpr)
  | cmpE (op : List Char) (a b : PyExpr)
  | addE (a b : PyExpr)
  | subE (a b : PyExpr)
  | mulE (a b : PyExpr)
  | divE (a b : PyExpr)
  deriving DecidableEq

/-- A Python runtime value of the modeled fragment. -/
inductive PyVal where
  | num (q : ℚ)
  | pbool (b : Bool)
  deriving DecidableEq

/-- `bool(v)`. -/
def truthy : PyVal → Bool
  | .num q => decide (q ≠ 0)
  | .pbool b => b

/-- The numeric content of a value (`bool` is an `int` in Python). -/
def toQ : PyVal → ℚ
  | .num q => q
  | .pbool b => if b then 1 else 0

/-- `StrategyParser.evaluate_comparison` from `strategy.py`: the operator
arrives as matched text; anything outside the six known operators
returns `False`. -/
def evaluate_comparison (l : ℚ) (op : List Char) (r : ℚ) : Bool :=
  if op = ['>'] then decide (l > r)
  else if op = ['<'] then decide (l < r)
  else if op = ['>', '='] then decide (l ≥ r)
  else if op = ['<', '='] then decide (l ≤ r)
  else if op = ['=', '='] then decide (l = r)
  else if op = ['!', '='] then decide (l ≠ r)
  else false

/-- `StrategyParser.parse_ma_expression` from `strategy.py`: match the MA
pattern at the start of the stripped term, pick the granularity's frame
and look the value up (`None`, a number, or a `NaN` float). -/
def parse_ma_expression (t : List Char) (data : Snapshot) (d : ℤ) : Option PyFloat :=
  let t2 := ((t.dropWhile Char.isWhitespace).reverse.dropWhile Char.isWhitespace).reverse
  match maMatchAt t2 with
  | none => none
  | some (g, per, off, _) =>
    let df := if g = 'D' then data.daily else if g = 'W' then data.weekly else data.monthly
    get_ma_value df d (digitsToNat per)
      (match off with | some o => digitsToNat o | none => 0)

/-- Does `pat` start the list? -/
def startsWith : List Char → List Char → Bool
  | [], _ => true
  | _ :: _, [] => false
  | p :: ps, c :: cs => p = c && startsWith ps cs

/-- `s.replace(pat, rep)`: replace every non-overlapping occurrence, left
to right (fuelled; each step consumes at least one character when `pat`
is nonempty, as it is at every use). -/
def replaceGo (pat rep : List Char) : Nat → List Char → List Char
  | 0, cs => cs
  | _ + 1, [] => []
  | f + 1, c :: cs =>
    if startsWith pat (c :: cs) then rep ++ replaceGo pat rep f ((c :: cs).drop pat.length)
    else c :: replaceGo pat rep f cs

def replaceAll (pat rep cs : List Char) : List Char := replaceGo pat rep cs.length cs

/-- `.replace('&&', ' and ').replace('||', ' or ').replace('!', ' not ')`
from `evaluate_kline_strategy` (note: this also rewrites `!=` into
`not =`, which `eval` then rejects). -/
def opReplace (cs : List Char) : List Char :=
  replaceAll ['!'] [' ', 'n', 'o', 't', ' ']
    (replaceAll ['|', '|'] [' ', 'o', 'r', ' ']
      (replaceAll ['&', '&'] [' ', 'a', 'n', 'd', ' '] cs))

def skipWs (cs : List Char) : List Char := cs.dropWhile Char.isWhitespace

def isIdentChar (c : Char) : Bool := c.isAlphanum || c = '_'

/-- Match a keyword token (must not be followed by an identifier
character). -/
def matchKw (kw cs : List Char) : Option (List Char) :=
  if startsWith kw cs then
    let rest := cs.drop kw.length
    match rest with
    | [] => some []
    | c :: _ => if isIdentChar c then none else some rest
  else none

/-- Parse a comparison operator at the head of the input. -/
def parseCmpOp (cs : List Char) : Option (List Char × List Char) :=
  if startsWith ['<', '='] cs then some (['<', '='], cs.drop 2)
  else if startsWith ['>', '='] cs then some (['>', '='], cs.drop 2)
  else if startsWith ['=', '='] cs then some (['=', '='], cs.drop 2)
  else if startsWith ['<'] cs then some (['<'], cs.drop 1)
  else if startsWith ['>'] cs then some (['>'], cs.drop 1)
  else none

/-- Parse a numeric literal `\d+(\.\d*)?` at the head of the input
(assumes the head is a digit). -/
def parseNum (cs : List Char) : Option (PyExpr × List Char) :=
  let ds := cs.takeWhile isDigitC
  if ds.isEmpty then none
  else
    match cs.drop ds.length with
    | '.' :: r2 =>
      let fs := r2.takeWhile isDigitC
      some (.lit (qOfDigits ds fs), r2.drop fs.length)
    | r => some (.lit (digitsToNat ds : ℚ), r)

mutual

/-- `or`-level of the parser (lowest precedence). -/
def pOr : Nat → List Char → Option (PyExpr × List Char)
  | 0, _ => none
  | f + 1, cs =>
    match pAnd f cs with
    | none => none
    | some (e, rest) => pOrTail f e rest

def pOrTail : Nat → PyExpr → List Char → Option (PyExpr × List Char)
  | 0, _, _ => none
  | f + 1, acc, cs =>
    match matchKw ['o', 'r'] (skipWs cs) with
    | some rest =>
      match pAnd f rest with
      | some (e, rest2) => pOrTail f (.orE acc e) rest2
      | none => none
    | none => some (acc, cs)

def pAnd : Nat → List Char → Option (PyExpr × List Char)
  | 0, _ => none
  | f + 1, cs =>
    match pNot f cs with
    | none => none
    | some (e, rest) => pAndTail f e rest

def pAndTail : Nat → PyExpr → List Char → Option (PyExpr × List Char)
  | 0, _, _ => none
  | f + 1, acc, cs =>
    match matchKw ['a', 'n', 'd'] (skipWs cs) with
    | some rest =>
      match pNot f rest with
      | some (e, rest2) => pAndTail f (.andE acc e) rest2
      | none => none
    | none => some (acc, cs)

def pNot : Nat → List Char → Option (PyExpr × List Char)
  | 0, _ => none
  | f + 1, cs =>
    match matchKw ['n', 'o', 't'] (skipWs cs) with
    | some rest => (pNot f rest).map fun (e, r) => (.bnot e, r)
    | none => pCmp f cs

/-- Comparison level.  A chain `a < b < c` is desugared, as in Python, to
`(a < b) and (b < c)`; with pure operands the evaluation orders agree. -/
def pCmp : Nat → List Char → Option (PyExpr × List Char)
  | 0, _ => none
  | f + 1, cs =>
    match pAdd f cs with
    | none => none
    | some (e, rest) => pCmpGo f none e rest

def pCmpGo : Nat → Option PyExpr → PyExpr → List Char → Option (PyExpr × List Char)
  | 0, _, _, _ => none
  | f + 1, conj, prev, cs =>
    match parseCmpOp (skipWs cs) with
    | none => some ((match conj with | none => prev | some k => k), cs)
    | some (op, r2) =>
      match pAdd f r2 with
      | none => none
      | some (e1, r3) =>
        let c := PyExpr.cmpE op prev e1
        pCmpGo f (some (match conj with | none => c | some k => .andE k c)) e1 r3

def pAdd : Nat → List Char → Option (PyExpr × List Char)
  | 0, _ => none
  | f + 1, cs =>
    match pMul f cs with
    | none => none
    | some (e, rest) => pAddTail f e rest

def pAddTail : Nat → PyExpr → List Char → Option (PyExpr × List Char)
  | 0, _, _ => none
  | f + 1, acc, cs =>
    match skipWs cs with
    | '+' :: r =>
      match pMul f r with
      | some (e, r2) => pAddTail f (.addE acc e) r2
      | none => none
    | '-' :: r =>
      match pMul f r with
      | some (e, r2) => pAddTail f (.subE acc e) r2
      | none => none
    | _ => some (acc, cs)

def pMul : Nat → List Char → Option (PyExpr × List Char)
  | 0, _ => none
  | f + 1, cs =>
    match pUnary f cs with
    | none => none
    | some (e, rest) => pMulTail f e rest

def pMulTail : Nat → PyExpr → List Char → Option (PyExpr × List Char)
  | 0, _, _ => none
  | f + 1, acc, cs =>
    match skipWs cs with
    | '*' :: r =>
      match pUnary f r with
      | some (e, r2) => pMulTail f (.mulE acc e) r2
      | none => none
    | '/' :: r =>
      match pUnary f r with
      | some (e, r2) => pMulTail f (.divE acc e) r2
      | none => none
    | _ => some (acc, cs)

def pUnary : Nat → List Char → Option (PyExpr × List Char)
  | 0, _ => none
  | f + 1, cs =>
    match skipWs cs with
    | '-' :: r => (pUnary f r).map fun (e, rest) => (.neg e, rest)
    | cs2 => pAtom f cs2

def pAtom : Nat → List Char → Option (PyExpr × List Char)
  | 0, _ => none
  | f + 1, cs =>
    match skipWs cs with
    | [] => none
    | c :: rest =>
      if c = '(' then
        match pOr f rest with
        | some (e, r2) =>
          match skipWs r2 with
          | c2 :: r3 => if c2 = ')' then some (e, r3) else none
          | [] => none
        | none => none
      else if isDigitC c then parseNum (c :: rest)
      else
        match maMatchAt (c :: rest) with
        | some (g, per, off, r) => some (.maTerm (renderMatch g per off), r)
        | none => none

end

/-- Parse a complete Python expression of the modeled fragment. -/
def parsePyExpr (cs : List Char) : Option PyExpr :=
  match pOr (8 * cs.length + 64) cs with
  | some (e, rest) => if skipWs rest = [] then some e else none
  | none => none

/-- Evaluate a parsed expression.  MA terms are resolved directly
(the source replaced their text by their resolved value before `eval`):
a numeric value evaluates to itself; a `NaN` was substituted as the
text `nan`, an undefined name, so touching it raises `NameError`
(`none`) — but `and`/`or` short-circuit in Python's order, so an
untouched `nan` does no harm; an unresolved (`None`) term's text was
never substituted at all, likewise an undefined name.  Division by
zero is also a raised exception (`none`). -/
def evalPy (data : Snapshot) (d : ℤ) : PyExpr → Option PyVal
  | .lit q => some (.num q)
  | .maTerm t =>
    match parse_ma_expression t data d with
    | some (.num q) => some (.num q)
    | some .nan => none
    | none => none
  | .neg e => (evalPy data d e).map fun v => .num (-(toQ v))
  | .bnot e => (evalPy data d e).map fun v => .pbool (!truthy v)
  | .andE a b =>
    match evalPy data d a with
    | none => none
    | some va => if truthy va then evalPy data d b else some va
  | .orE a b =>
    match evalPy data d a with
    | none => none
    | some va => if truthy va then some va else evalPy data d b
  | .cmpE op a b =>
    match evalPy data d a, evalPy data d b with
    | some va, some vb => some (.pbool (evaluate_comparison (toQ va) op (toQ vb)))
    | _, _ => none
  | .addE a b =>
    match evalPy data d a, evalPy data d b with
    | some va, some vb => some (.num (toQ va + toQ vb))
    | _, _ => none
  | .subE a b =>
    match evalPy data d a, evalPy data d b with
    | some va, some vb => some (.num (toQ va - toQ vb))
    | _, _ => none
  | .mulE a b =>
    match evalPy data d a, evalPy data d b with
    | some va, some vb => some (.num (toQ va * toQ vb))
    | _, _ => none
  | .divE a b =>
    match evalPy data d a, evalPy data d b with
    | some va, some vb => if toQ vb = 0 then none else some (.num (toQ va / toQ vb))
    | _, _ => none

/-- `StrategyParser.evaluate_kline_strategy` from `strategy.py`:
empty or whitespace-only expression (`not expression or not
expression.strip()`) is `True`; otherwise expand repetitions, collect
the MA terms of the expanded text, return `False` if any resolves to
`None` — and only to `None`: a `NaN` value passes this check and flows
into `eval` — then evaluate; a failed parse or evaluation (a caught
exception in the source) is `False`, otherwise `bool(result)`. -/
def evaluate_kline_strategy (expr : List Char) (data : Snapshot) (d : ℤ) : Bool :=
  if expr.all Char.isWhitespace then true
  else
    let expanded := expand_repeat_expression expr
    let terms := maScanAll expanded
    if terms.any (fun t => (parse_ma_expression t data d).isNone) then false
    else
      match parsePyExpr (opReplace expanded) with
      | none => false
      | some ast =>
        match evalPy data d ast with
        | none => false
        | some v => truthy v

/-- Attempt to match the `kline_pattern` regex
`([DWM]K)\s*([<>=!]+)\s*(-?\d+(?:\.\d+)?)\s*%?` at the head of the
input, returning granularity letter, operator text and threshold. -/
def klineMatchAt : List Char → Option (Char × List Char × ℚ)
  | c :: c2 :: rest =>
    if isDWM c && c2 = 'K' then
      let r1 := skipWs rest
      let ops := r1.takeWhile fun x => x = '<' || x = '>' || x = '=' || x = '!'
      if ops.isEmpty then none
      else
        let r2 := skipWs (r1.drop ops.length)
        let (sgn, r3) : ℚ × List Char :=
          match r2 with
          | '-' :: r => (-1, r)
          | r => (1, r)
        let ds := r3.takeWhile isDigitC
        if ds.isEmpty then none
        else
          match r3.drop ds.length with
          | '.' :: r4 =>
            let fs := r4.takeWhile isDigitC
            if fs.isEmpty then some (c, ops, sgn * (digitsToNat ds : ℚ))
            else some (c, ops, sgn * qOfDigits ds fs)
          | _ => some (c, ops, sgn * (digitsToNat ds : ℚ))
    else none
  | _ => none

/-- `re.search` scan for the K-line pattern: first matching position. -/
def klineSearch : List Char → Option (Char × List Char × ℚ)
  | [] => none
  | c :: cs =>
    match klineMatchAt (c :: cs) with
    | some m => some m
    | none => klineSearch cs

/-- `StrategyParser.evaluate_trade_buy_condition` from `strategy.py`. -/
def evaluate_trade_buy_condition (expr : List Char) (data : Snapshot) (d : ℤ) : Bool :=
  if expr.all Char.isWhitespace then true
  else
    match klineSearch expr with
    | none => true
    | some (g, op, thr) =>
      let df := if g = 'D' then data.daily else if g = 'W' then data.weekly else data.monthly
      match get_pct_change df d with
      | none => false
      | some pc => evaluate_comparison pc op thr

/-! ### Trading strategy (`strategy.py`) -/

/-- The configuration fields `TradingStrategy.__init__` reads
(`kline_strategy.buy`, `trade_strategy.BUYS`, `SELL.GAIN/LOSS/PERIOD`).
Immutable for a run. -/
structure Config where
  klineBuy : List Char
  buyCondition : List Char
  gainPct : ℚ
  lossPct : ℚ
  holdPeriod : ℚ
  deriving DecidableEq

/-- The sell-reason strings `"止盈"` (take-profit), `"止损"` (stop-loss),
`"到期"` (expired) and `"回测结束"` (backtest end). -/
inductive SellReason where
  | takeProfit
  | stopLoss
  | expired
  | backtestEnd
  deriving DecidableEq

/-- `TradingStrategy.check_kline_strategy`. -/
def check_kline_strategy (cfg : Config) (data : Snapshot) (d : ℤ) : Bool :=
  evaluate_kline_strategy cfg.klineBuy data d

/-- `TradingStrategy.check_buy_signal`. -/
def check_buy_signal (cfg : Config) (data : Snapshot) (d : ℤ) (hasPosition : Bool) : Bool :=
  if hasPosition then false
  else if !check_kline_strategy cfg data d then false
  else if !evaluate_trade_buy_condition cfg.buyCondition data d then false
  else true

/-- `TradingStrategy.check_sell_signal`: the `(should_sell, reason)`
pair; the source's `""` reason is `none`.  `hold_days` is the calendar
difference `(date - buy_date).days`, here a difference of day
numbers. -/
def check_sell_signal (cfg : Config) (data : Snapshot) (d : ℤ) (buyPrice : ℚ) (buyDate : ℤ) :
    Bool × Option SellReason :=
  match get_close_price data.daily d 0 with
  | none => (false, none)
  | some currentPrice =>
    let profitPct := (currentPrice - buyPrice) / buyPrice * 100
    if profitPct ≥ cfg.gainPct then (true, some .takeProfit)
    else if profitPct ≤ -cfg.lossPct then (true, some .stopLoss)
    else if ((d - buyDate : ℤ) : ℚ) ≥ cfg.holdPeriod then (true, some .expired)
    else (false, none)

/-- The action field of the signal dictionary `evaluate_strategy`
returns: `'buy'`, or `'sell'` together with its reason. -/
inductive SigAction where
  | buy
  | sell (reason : SellReason)
  deriving DecidableEq

/-- The decision `evaluate_strategy` returns for one day: the action (if
any) and the current close price (if any). -/
structure Signal where
  action : Option SigAction
  price : Option ℚ
  deriving DecidableEq

/-- The open position state (`self.current_position`).  The inert
`stock_code`/`stock_name` strings are omitted. -/
structure Position where
  buyDate : ℤ
  buyPrice : ℚ
  shares : ℤ
  cost : ℚ
  deriving DecidableEq

/-- `evaluate_strategy` from `strategy.py` (the per-day decision
function).  `price` is `get_current_price`, i.e. the daily close at the
date.  A `(True, reason)` from `check_sell_signal` always carries a
reason; the impossible `(True, none)` shape maps to no action. -/
def evaluate_strategy (d : ℤ) (data : Snapshot) (cfg : Config) (pos : Option Position) :
    Signal :=
  let price := get_close_price data.daily d 0
  match pos with
  | none =>
    if check_buy_signal cfg data d false then { action := some .buy, price := price }
    else { action := none, price := price }
  | some p =>
    match check_sell_signal cfg data d p.buyPrice p.buyDate with
    | (true, some r) => { action := some (.sell r), price := price }
    | _ => { action := none, price := price }

/-! ### Backtest engine (`backtest.py`) -/

/-- One closed trade, with the rounding `_execute_sell` applies. -/
structure Trade where
  tradeId : ℕ
  buyDate : ℤ
  buyPrice : ℚ
  sellDate : ℤ
  sellPrice : ℚ
  shares : ℤ
  profit : ℚ
  profitPct : ℚ
  sellReason : SellReason
  holdDays : ℤ
  deriving DecidableEq

/-- The engine's mutable state: capital, at most one open position
(enforced by the `Option`), and the append-only trade list. -/
structure EngState where
  capital : ℚ
  position : Option Position
  trades : List Trade
  deriving DecidableEq

/-- The state `run_backtest` resets before a replay
(`initial_capital = 1000000`). -/
def initState : EngState := { capital := 1000000, position := none, trades := [] }

/-- `BacktestEngine._execute_buy`: no-op while holding; shares are
`int(capital / price / 100) * 100` (whole lots of 100 with all available
capital); zero or negative shares skip the buy. -/
def execute_buy (d : ℤ) (price : ℚ) (st : EngState) : EngState :=
  match st.position with
  | some _ => st
  | none =>
    let shares : ℤ := int_trunc (st.capital / price / 100) * 100
    if shares ≤ 0 then st
    else
      let cost : ℚ := (shares : ℚ) * price
      { capital := st.capital - cost
        position := some { buyDate := d, buyPrice := price, shares := shares, cost := cost }
        trades := st.trades }

/-- `BacktestEngine._execute_sell`: no-op while flat; otherwise append
one trade, add the revenue back and clear the position. -/
def execute_sell (d : ℤ) (price : ℚ) (reason : SellReason) (st : EngState) : EngState :=
  match st.position with
  | none => st
  | some pos =>
    let revenue : ℚ := (pos.shares : ℚ) * price
    let profit : ℚ := revenue - pos.cost
    let profitPct : ℚ := (price - pos.buyPrice) / pos.buyPrice * 100
    let trade : Trade :=
      { tradeId := st.trades.length + 1
        buyDate := pos.buyDate
        buyPrice := pyround2 pos.buyPrice
        sellDate := d
        sellPrice := pyround2 price
        shares := pos.shares
        profit := pyround2 profit
        profitPct := pyround2 profitPct
        sellReason := reason
        holdDays := d - pos.buyDate }
    { capital := st.capital + revenue, position := none, trades := st.trades ++ [trade] }

/-- The signal dispatch in the `run_backtest` loop body: buy/sell only
when the action is set and a price is available. -/
def applySignal (d : ℤ) (sig : Signal) (st : EngState) : EngState :=
  match sig.action, sig.price with
  | some .buy, some p => execute_buy d p st
  | some (.sell r), some p => execute_sell d p r st
  | _, _ => st

/-- The truncated view `current_kline_data` built for one simulation
date: each frame filtered to bars with date `≤ d` (the no-lookahead
truncation). -/
def truncSnap (daily weekly monthly : List Bar) (d : ℤ) : Snapshot :=
  { daily := upTo d daily, weekly := upTo d weekly, monthly := upTo d monthly }

/-- One iteration of the `for idx, row in backtest_data.iterrows()` loop. -/
def stepBar (cfg : Config) (daily weekly monthly : List Bar) (st : EngState) (b : Bar) :
    EngState :=
  applySignal b.date
    (evaluate_strategy b.date (truncSnap daily weekly monthly b.date) cfg st.position) st

/-- Minimum of a date and a list of dates (`df['date'].min()`). -/
def listMinD : ℤ → List ℤ → ℤ
  | a, [] => a
  | a, x :: xs => listMinD (min a x) xs

/-- Maximum of a date and a list of dates (`df['date'].max()`). -/
def listMaxD : ℤ → List ℤ → ℤ
  | a, [] => a
  | a, x :: xs => listMaxD (max a x) xs

/-- The effective replay start date: the configured cutoff
(`today - backtest_years*365`, an external parameter here) clamped up to
the first available bar date. -/
def startDate (daily : List Bar) (cutoff : ℤ) : ℤ :=
  match daily with
  | [] => cutoff
  | b :: l => max cutoff (listMinD b.date (l.map (·.date)))

/-- `backtest_data = daily_data[daily_data['date'] >= start_date]`. -/
def windowOf (daily : List Bar) (cutoff : ℤ) : List Bar :=
  daily.filter fun b => decide (startDate daily cutoff ≤ b.date)

/-- `backtest_data['date'].max()` (callers guard against the empty
window, for which the result is arbitrary). -/
def lastDateOf (window : List Bar) : ℤ :=
  match window with
  | [] => 0
  | b :: l => listMaxD b.date (l.map (·.date))

/-- The engine state after the day loop of `run_backtest`. -/
def loopState (cfg : Config) (daily weekly monthly : List Bar) (cutoff : ℤ) : EngState :=
  (windowOf daily cutoff).foldl (stepBar cfg daily weekly monthly) initState

/-- `BacktestEngine.run_backtest`, returning the final engine state: the
fresh state, the guard for an empty frame or empty window, the day loop,
and the forced close (`"回测结束"`) when still holding at the end. -/
def run_backtest (cfg : Config) (daily weekly monthly : List Bar) (cutoff : ℤ) : EngState :=
  match daily with
  | [] => initState
  | _ :: _ =>
    let window := windowOf daily cutoff
    if window = [] then initState
    else
      let st := loopState cfg daily weekly monthly cutoff
      match st.position with
      | none => st
      | some _ =>
        let lastD := lastDateOf window
        match get_close_price daily lastD 0 with
        | none => st
        | some lastPrice => execute_sell lastD lastPrice .backtestEnd st

/-- The data-model ordering guarantee: bars are strictly ascending by
date (dates within one series are unique). -/
def sortedByDate (l : List Bar) : Prop := l.Pairwise (fun a b => a.date < b.date)

/-- The decision `run_backtest` computes at simulation date `d`: walk the
replay window exactly as the day loop does, and surface the signal
produced at the bar whose date is `d` (`none` when no such bar is
reached).  The walk shares `evaluate_strategy`, `truncSnap` and
`applySignal` with `stepBar`, so it is the loop itself, instrumented. -/
def decisionAux (cfg : Config) (daily weekly monthly : List Bar) (d : ℤ) :
    List Bar → EngState → Option Signal
  | [], _ => none
  | b :: rest, st =>
    let sig := evaluate_strategy b.date (truncSnap daily weekly monthly b.date) cfg st.position
    if b.date = d then some sig
    else decisionAux cfg daily weekly monthly d rest (applySignal b.date sig st)

/-- The buy/sell decision made at date `d` during a replay of the given
series under the given configuration and cutoff. -/
def decisionAt (cfg : Config) (daily weekly monthly : List Bar) (cutoff d : ℤ) :
    Option Signal :=
  match daily with
  | [] => none
  | _ :: _ => decisionAux cfg daily weekly monthly d (windowOf daily cutoff) initState

/-! ### Statistics (`backtest.py`) -/

/-- The combined statistics dictionary.  `finalCapital` is `none` in the
zero-trade branch, whose dictionary has no `final_capital` key. -/
structure CombinedStats where
  totalTrades : ℕ
  winCount : ℕ
  lossCount : ℕ
  winRate : ℚ
  totalReturn : ℚ
  totalReturnPct : ℚ
  finalCapital : Option ℚ
  avgHoldDays : ℚ
  deriving DecidableEq

/-- Sum of the (already rounded) `profit` fields of a trade list. -/
def sumProfit (l : List Trade) : ℚ := (l.map (·.profit)).sum

/-- `get_combined_statistics` from `backtest.py`, over the per-result
trade lists.  `total_return_pct` divides the summed profits by the
single fixed initial-capital constant `1000000`. -/
def get_combined_statistics (results : List (List Trade)) : CombinedStats :=
  let allTrades := results.flatten
  if allTrades = [] then
    { totalTrades := 0, winCount := 0, lossCount := 0, winRate := 0, totalReturn := 0
      totalReturnPct := 0, finalCapital := none, avgHoldDays := 0 }
  else
    let total := allTrades.length
    let winCount := (allTrades.filter fun t => decide (0 < t.profit)).length
    let lossCount := total - winCount
    let winRate : ℚ := (winCount : ℚ) / (total : ℚ) * 100
    let totalProfit := sumProfit allTrades
    let totalReturnPct : ℚ := totalProfit / 1000000 * 100
    let avgHoldDays : ℚ := ((allTrades.map (·.holdDays)).sum : ℚ) / (total : ℚ)
    { totalTrades := total
      winCount := winCount
      lossCount := lossCount
      winRate := pyround2 winRate
      totalReturn := pyround2 totalProfit
      totalReturnPct := pyround2 totalReturnPct
      finalCapital := some (pyround2 (1000000 + totalProfit))
      avgHoldDays := pyround1 avgHoldDays }

/-! ## Supporting lemmas -/

theorem int_trunc_of_nonneg {q : ℚ} (h : 0 ≤ q) : int_trunc q = ⌊q⌋ := if_pos h

/-- C2 helper and engine fact: a buy while holding changes nothing. -/
theorem execute_buy_of_some {st : EngState} (h : st.position.isSome = true)
    (d : ℤ) (p : ℚ) : execute_buy d p st = st := by
  cases hp : st.position with
  | none => rw [hp] at h; simp at h
  | some pos => simp [execute_buy, hp]

theorem ws_not_paren {c : Char} (h : c.isWhitespace = true) : ¬c = '(' := by
  simp [Char.isWhitespace] at h
  rcases h with ((h | h) | h) | h <;> subst h <;> decide

theorem ws_not_dwm {c : Char} (h : c.isWhitespace = true) : isDWM c = false := by
  simp [Char.isWhitespace] at h
  rcases h with ((h | h) | h) | h <;> subst h <;> decide

theorem containsRepeatMatch_eq_false_of_noParen {cs : List Char}
    (h : ∀ c ∈ cs, ¬c = '(') : containsRepeatMatch cs = false := by
  induction cs with
  | nil => rfl
  | cons c cs ih =>
    have hc : ¬c = '(' := h c (by simp)
    have hm : repeatMatchAt (c :: cs) = none := by
      simp [repeatMatchAt, hc]
    simp [containsRepeatMatch, hm, ih fun x hx => h x (by simp [hx])]

theorem repeatSubGo_eq_self {cs : List Char} (h : containsRepeatMatch cs = false) :
    ∀ f, repeatSubGo f cs = cs := by
  induction cs with
  | nil => intro f; cases f <;> rfl
  | cons c cs ih =>
    intro f
    cases f with
    | zero => rfl
    | succ f =>
      simp only [containsRepeatMatch, Bool.or_eq_false_iff] at h
      have hm : repeatMatchAt (c :: cs) = none := by
        cases hmm : repeatMatchAt (c :: cs) with
        | none => rfl
        | some v => rw [hmm] at h; simp at h
      simp [repeatSubGo, hm, ih h.2 f]

theorem expand_eq_self {cs : List Char} (h : containsRepeatMatch cs = false) :
    expand_repeat_expression cs = cs := by
  show expandLoop (cs.length + 1) cs = cs
  simp [expandLoop, repeatSubPass, repeatSubGo_eq_self h]

theorem maScanGo_eq_nil {cs : List Char} (h : ∀ c ∈ cs, isDWM c = false) :
    ∀ f, maScanGo f cs = [] := by
  induction cs with
  | nil => intro f; cases f <;> rfl
  | cons c cs ih =>
    intro f
    cases f with
    | zero => rfl
    | succ f =>
      have hm : maMatchAt (c :: cs) = none := by
        simp [maMatchAt, h c (by simp)]
      simp [maScanGo, hm, ih fun x hx => h x (by simp [hx])]

theorem listMaxD_mem (xs : List ℤ) : ∀ a : ℤ, listMaxD a xs ∈ a :: xs := by
  induction xs with
  | nil => intro a; simp [listMaxD]
  | cons x xs ih =>
    intro a
    rw [listMaxD]
    rcases List.mem_cons.mp (ih (max a x)) with h2 | h2
    · rcases max_choice a x with hm | hm
      · rw [h2, hm]; exact List.mem_cons_self _ _
      · rw [h2, hm]; exact List.mem_cons_of_mem _ (List.mem_cons_self _ _)
    · exact List.mem_cons_of_mem _ (List.mem_cons_of_mem _ h2)

theorem lastDateOf_mem {window : List Bar} (h : window ≠ []) :
    ∃ b ∈ window, b.date = lastDateOf window := by
  cases window with
  | nil => exact absurd rfl h
  | cons b l =>
    rcases List.mem_cons.mp (listMaxD_mem (l.map (·.date)) b.date) with h2 | h2
    · exact ⟨b, by simp, by rw [lastDateOf]; exact h2.symm⟩
    · rcases List.mem_map.mp h2 with ⟨x, hx, hxd⟩
      exact ⟨x, by simp [hx], by rw [lastDateOf]; exact hxd⟩

theorem get_close_price_isSome {df : List Bar} {d : ℤ} {b : Bar}
    (hb : b ∈ df) (hbd : b.date ≤ d) : ∃ q, get_close_price df d 0 = some q := by
  have hdf : df ≠ [] := by rintro rfl; exact absurd hb (List.not_mem_nil b)
  have hbf : b ∈ upTo d df := List.mem_filter.mpr ⟨hb, by simp [hbd]⟩
  have hfne : upTo d df ≠ [] := by rintro hf; rw [hf] at hbf; exact absurd hbf (List.not_mem_nil b)
  have hlen : 0 < (upTo d df).length := List.length_pos.mpr hfne
  have hidx : (upTo d df).length - 1 - 0 < (upTo d df).length := by omega
  refine ⟨(upTo d df)[(upTo d df).length - 1 - 0].close, ?_⟩
  simp only [get_close_price, if_neg hdf, if_neg (by omega : ¬(upTo d df).length ≤ 0)]
  rw [List.getElem?_eq_getElem hidx]
  rfl

theorem get_close_price_pos {df : List Bar} {d : ℤ} {off : Nat} {p : ℚ}
    (hpos : ∀ b ∈ df, 0 < b.close) (h : get_close_price df d off = some p) : 0 < p := by
  by_cases hdf : df = []
  · rw [hdf] at h; simp [get_close_price] at h
  · simp only [get_close_price, if_neg hdf] at h
    by_cases hlen : (upTo d df).length ≤ off
    · rw [if_pos hlen] at h; simp at h
    · rw [if_neg hlen] at h
      rcases Option.map_eq_some'.mp h with ⟨a, ha, hap⟩
      have : a ∈ df := (List.mem_filter.mp (List.getElem?_mem ha)).1
      exact hap ▸ hpos a this

/-- The capital/shares invariant preserved by every engine step. -/
theorem stepBar_inv (cfg : Config) (daily weekly monthly : List Bar)
    (hpos : ∀ b ∈ daily, 0 < b.close) (st : EngState) (b : Bar)
    (h : 0 ≤ st.capital ∧ ∀ pos, st.position = some pos → 0 ≤ pos.shares) :
    0 ≤ (stepBar cfg daily weekly monthly st b).capital ∧
      ∀ pos, (stepBar cfg daily weekly monthly st b).position = some pos → 0 ≤ pos.shares := by
  have hdpos : ∀ x ∈ (truncSnap daily weekly monthly b.date).daily, 0 < x.close := by
    intro x hx
    exact hpos x (List.mem_filter.mp hx).1
  simp only [stepBar]
  set sig := evaluate_strategy b.date (truncSnap daily weekly monthly b.date) cfg st.position
    with hsig
  have hprice : ∀ p, sig.price = some p → 0 < p := by
    intro p hp
    have hform :
        sig.price = get_close_price (truncSnap daily weekly monthly b.date).daily b.date 0 := by
      rw [hsig]
      cases st.position with
      | none =>
        simp only [evaluate_strategy]
        split_ifs <;> rfl
      | some pos =>
        simp only [evaluate_strategy]
        rcases check_sell_signal cfg (truncSnap daily weekly monthly b.date) b.date
            pos.buyPrice pos.buyDate with ⟨b1, r1⟩
        cases b1 <;> cases r1 <;> rfl
    rw [hform] at hp
    exact get_close_price_pos hdpos hp
  rcases hact : sig.action with _ | act
  · cases hpr : sig.price <;> · simp only [applySignal, hact, hpr]; exact h
  rcases act with _ | r
  · -- buy
    cases hpr : sig.price with
    | none => simp only [applySignal, hact, hpr]; exact h
    | some p =>
      have hp : 0 < p := hprice p hpr
      simp only [applySignal, hact, hpr]
      rcases hst : st.position with _ | pos
      · simp only [execute_buy, hst]
        set sh : ℤ := int_trunc (st.capital / p / 100) * 100 with hsh
        by_cases hshle : sh ≤ 0
        · rw [if_pos hshle]; exact h
        · rw [if_neg hshle]
          have hnn : (0 : ℚ) ≤ st.capital / p / 100 :=
            div_nonneg (div_nonneg h.1 hp.le) (by norm_num)
          have htr : int_trunc (st.capital / p / 100) = ⌊st.capital / p / 100⌋ :=
            int_trunc_of_nonneg hnn
          have hfl : (⌊st.capital / p / 100⌋ : ℚ) ≤ st.capital / p / 100 :=
            Int.floor_le _
          have hcost : (sh : ℚ) * p ≤ st.capital := by
            rw [hsh, htr]
            push_cast
            have h1 : (⌊st.capital / p / 100⌋ : ℚ) * 100 ≤ st.capital / p := by
              calc (⌊st.capital / p / 100⌋ : ℚ) * 100 ≤ st.capital / p / 100 * 100 :=
                    mul_le_mul_of_nonneg_right hfl (by norm_num)
                _ = st.capital / p := div_mul_cancel₀ _ (by norm_num)
            calc (⌊st.capital / p / 100⌋ : ℚ) * 100 * p ≤ st.capital / p * p :=
                  mul_le_mul_of_nonneg_right h1 (le_of_lt hp)
              _ = st.capital := div_mul_cancel₀ _ (ne_of_gt hp)
          constructor
          · show (0 : ℚ) ≤ st.capital - (sh : ℚ) * p
            linarith
          · intro pos2 hpos2
            have hps : (⟨b.date, p, sh, (sh : ℚ) * p⟩ : Position) = pos2 := by
              simpa using hpos2
            rw [← hps]
            show (0 : ℤ) ≤ sh
            push_neg at hshle
            exact le_of_lt hshle
      · simp only [execute_buy, hst]
        exact ⟨h.1, fun pos2 hp2 => h.2 pos2 (by rw [hst]; exact hp2)⟩
  · -- sell
    cases hpr : sig.price with
    | none => simp only [applySignal, hact, hpr]; exact h
    | some p =>
      have hp : 0 < p := hprice p hpr
      simp only [applySignal, hact, hpr]
      rcases hst : st.position with _ | pos
      · simp only [execute_sell, hst]
        exact ⟨h.1, fun pos2 hp2 => absurd hp2 (by simp)⟩
      · have hsh : 0 ≤ pos.shares := h.2 pos hst
        simp only [execute_sell, hst]
        constructor
        · show (0 : ℚ) ≤ st.capital + (pos.shares : ℚ) * p
          have : (0 : ℚ) ≤ (pos.shares : ℚ) * p :=
            mul_nonneg (by exact_mod_cast hsh) (le_of_lt hp)
          linarith [h.1]
        · intro pos2 hpos2
          exact absurd hpos2 (by simp)

/-- The invariant holds after folding any bar list. -/
theorem foldl_inv (cfg : Config) (daily weekly monthly : List Bar)
    (hpos : ∀ b ∈ daily, 0 < b.close) :
    ∀ (l : List Bar) (st : EngState),
      (0 ≤ st.capital ∧ ∀ pos, st.position = some pos → 0 ≤ pos.shares) →
      (0 ≤ (l.foldl (stepBar cfg daily weekly monthly) st).capital ∧
        ∀ pos, (l.foldl (stepBar cfg daily weekly monthly) st).position = some pos →
          0 ≤ pos.shares) := by
  intro l
  induction l with
  | nil => intro st h; exact h
  | cons b l ih =>
    intro st h
    exact ih _ (stepBar_inv cfg daily weekly monthly hpos st b h)

/-! ## Claims -/

/-- **C2** (at-most-one-position).  The engine state's `position` field is
an `Option Position`, so every reachable state holds no position or
exactly one by construction; this theorem proves the behavioral half of
the claim: `check_buy_signal` returns `false` whenever `has_position` is
true, and `_execute_buy` leaves capital, position and trades unchanged
whenever a position already exists. -/
theorem c2_at_most_one_position :
    (∀ (cfg : Config) (data : Snapshot) (d : ℤ), check_buy_signal cfg data d true = false) ∧
    (∀ (d : ℤ) (p : ℚ) (st : EngState), st.position.isSome = true → execute_buy d p st = st) :=
  ⟨fun _ _ _ => rfl, fun d p _ h => execute_buy_of_some h d p⟩

/-- **C2 witness**: a concrete held state on which a buy is a no-op. -/
theorem c2_at_most_one_position_witness :
    check_buy_signal ⟨[], [], 5, 10, 60⟩ ⟨[], [], []⟩ 0 true = false ∧
    execute_buy 2 10 ⟨500000, some ⟨1, 10, 100, 1000⟩, []⟩ =
      ⟨500000, some ⟨1, 10, 100, 1000⟩, []⟩ :=
  ⟨c2_at_most_one_position.1 ⟨[], [], 5, 10, 60⟩ ⟨[], [], []⟩ 0,
   c2_at_most_one_position.2 2 10 ⟨500000, some ⟨1, 10, 100, 1000⟩, []⟩ (by decide)⟩

/-- **C6** (sell-rule priority).  While holding, with the current close
available, `check_sell_signal` computes the return
`(close - buyPrice)/buyPrice*100` and tests, in order: take-profit
(`≥ gainPct`), stop-loss (`≤ -lossPct`), max-hold expiry
(`days since buy ≥ holdPeriod`); the first match decides the reason, and
none matching yields no sell. -/
theorem c6_sell_rule_priority (cfg : Config) (data : Snapshot) (d : ℤ) (bp : ℚ) (bd : ℤ)
    (cur : ℚ) (hc : get_close_price data.daily d 0 = some cur) :
    ((cur - bp) / bp * 100 ≥ cfg.gainPct →
      check_sell_signal cfg data d bp bd = (true, some .takeProfit)) ∧
    ((cur - bp) / bp * 100 < cfg.gainPct → (cur - bp) / bp * 100 ≤ -cfg.lossPct →
      check_sell_signal cfg data d bp bd = (true, some .stopLoss)) ∧
    ((cur - bp) / bp * 100 < cfg.gainPct → -cfg.lossPct < (cur - bp) / bp * 100 →
      cfg.holdPeriod ≤ ((d - bd : ℤ) : ℚ) →
      check_sell_signal cfg data d bp bd = (true, some .expired)) ∧
    ((cur - bp) / bp * 100 < cfg.gainPct → -cfg.lossPct < (cur - bp) / bp * 100 →
      ((d - bd : ℤ) : ℚ) < cfg.holdPeriod →
      check_sell_signal cfg data d bp bd = (false, none)) := by
  simp only [check_sell_signal, hc]
  refine ⟨?_, ?_, ?_, ?_⟩ <;> intros <;> split_ifs <;> first | rfl | (exfalso; linarith)

/-- **C6 witness**: a 10% gain against `gainPct = 5` fires take-profit. -/
theorem c6_sell_rule_priority_witness :
    check_sell_signal ⟨[], [], 5, 10, 60⟩ ⟨[⟨31, 11, 0⟩], [], []⟩ 31 10 1 =
      (true, some .takeProfit) :=
  (c6_sell_rule_priority ⟨[], [], 5, 10, 60⟩ ⟨[⟨31, 11, 0⟩], [], []⟩ 31 10 1 11
    (by decide)).1 (by norm_num)

/-- **C8** (buy execution sizing).  A buy with positive price and
nonnegative capital, from a flat state, purchases
`⌊capital/(100·price)⌋·100` shares (the largest lot multiple whose cost
fits): if that is `≤ 0` the state is unchanged, otherwise capital drops
by exactly `shares·price` and the new position records the date, price,
shares and cost. -/
theorem c8_buy_sizing (d : ℤ) (p : ℚ) (st : EngState) (hpos : st.position = none)
    (hp : 0 < p) (hc : 0 ≤ st.capital) :
    (⌊st.capital / (100 * p)⌋ * 100 ≤ 0 → execute_buy d p st = st) ∧
    (0 < ⌊st.capital / (100 * p)⌋ * 100 →
      execute_buy d p st =
        { capital := st.capital - (⌊st.capital / (100 * p)⌋ * 100 : ℤ) * p
          position := some
            { buyDate := d, buyPrice := p, shares := ⌊st.capital / (100 * p)⌋ * 100
              cost := (⌊st.capital / (100 * p)⌋ * 100 : ℤ) * p }
          trades := st.trades }) := by
  have hval : st.capital / p / 100 = st.capital / (100 * p) := by
    rw [div_div, mul_comm]
  have hnn : (0 : ℚ) ≤ st.capital / (100 * p) := by positivity
  have hsh : int_trunc (st.capital / p / 100) = ⌊st.capital / (100 * p)⌋ := by
    rw [hval, int_trunc_of_nonneg hnn]
  constructor
  · intro hle
    simp only [execute_buy, hpos, hsh, if_pos hle]
  · intro hgt
    simp only [execute_buy, hpos, hsh, if_neg (not_le.mpr hgt)]

/-- **C8 witness**: the spec's concrete sizing — price 10 and capital
1,000,000 buy 100,000 shares for the whole capital. -/
theorem c8_buy_sizing_witness :
    execute_buy 1 10 initState =
      { capital := (1000000 : ℚ) - (⌊(1000000 : ℚ) / (100 * 10)⌋ * 100 : ℤ) * 10
        position := some
          { buyDate := 1, buyPrice := 10, shares := ⌊(1000000 : ℚ) / (100 * 10)⌋ * 100
            cost := (⌊(1000000 : ℚ) / (100 * 10)⌋ * 100 : ℤ) * 10 }
        trades := [] } := by
  have hfl : ⌊(1000000 : ℚ) / (100 * 10)⌋ = 1000 := by
    rw [show ((1000000 : ℚ) / (100 * 10)) = ((1000 : ℤ) : ℚ) by norm_num]
    exact Int.floor_intCast 1000
  exact (c8_buy_sizing 1 10 initState rfl (by norm_num)
      (by show (0 : ℚ) ≤ 1000000; norm_num)).2
    (by show (0 : ℤ) < ⌊(1000000 : ℚ) / (100 * 10)⌋ * 100; rw [hfl]; norm_num)

/-- **C9** (combined statistics non-double-counting).
`get_combined_statistics` computes `totalReturnPct` as the sum of all
trade profits over the single fixed initial capital 1,000,000, times
100 (then rounded to 2 decimals); in particular two instruments with
one 10,000-profit trade each combine to exactly 2. -/
theorem c9_combined_stats (results : List (List Trade)) (h : results.flatten ≠ []) :
    (get_combined_statistics results).totalReturnPct =
      pyround2 (sumProfit results.flatten / 1000000 * 100) ∧
    (∀ (t1 t2 : Trade), t1.profit = 10000 → t2.profit = 10000 →
      (get_combined_statistics [[t1], [t2]]).totalReturnPct = 2) := by
  constructor
  · simp only [get_combined_statistics, if_neg h]
  · intro t1 t2 h1 h2
    have hflat : ([[t1], [t2]] : List (List Trade)).flatten = [t1, t2] := by simp
    simp only [get_combined_statistics, hflat]
    rw [if_neg (List.cons_ne_nil t1 [t2])]
    have hsum : sumProfit [t1, t2] = 20000 := by
      simp [sumProfit, h1, h2]; norm_num
    show pyround2 (sumProfit [t1, t2] / 1000000 * 100) = 2
    rw [hsum]
    have hq : (100 : ℚ) * (20000 / 1000000 * 100) = ((200 : ℤ) : ℚ) := by norm_num
    rw [pyround2, hq, roundHalfEven, Int.floor_intCast]
    norm_num [round_intCast]

/-- **C9 witness**: two concrete 10,000-profit trades combine to 2%. -/
theorem c9_combined_stats_witness :
    (get_combined_statistics
      [[⟨1, 1, 10, 2, (101 : ℚ)/10, 100000, 10000, 1, .takeProfit, 30⟩],
       [⟨1, 1, 10, 2, (101 : ℚ)/10, 100000, 10000, 1, .takeProfit, 30⟩]]).totalReturnPct = 2 :=
  (c9_combined_stats
      [[⟨1, 1, 10, 2, (101 : ℚ)/10, 100000, 10000, 1, .takeProfit, 30⟩],
       [⟨1, 1, 10, 2, (101 : ℚ)/10, 100000, 10000, 1, .takeProfit, 30⟩]] (by decide)).2
    _ _ rfl rfl

/-- **C4 counterexample**.  The claim says a non-empty expression that
cannot be parsed evaluates to `true`; on the code the caught `eval`
exception produces `False`.  `"abc"` is non-empty, contains no MA term,
fails to parse (`eval` would raise `NameError`), and evaluates to
`false`. -/
theorem c4_fail_open_counterexample :
    ("abc".toList.all Char.isWhitespace) = false ∧
    parsePyExpr (opReplace (expand_repeat_expression "abc".toList)) = none ∧
    evaluate_kline_strategy "abc".toList ⟨[], [], []⟩ 0 = false := by
  refine ⟨by decide, by decide, ?_⟩
  decide

/-- **C4 (amended)**.  `evaluate_kline_strategy` returns `true` for every
empty or whitespace-only K-line expression; a non-empty expression whose
expanded, operator-replaced text cannot be parsed (where Python's `eval`
raises) evaluates to `false`, not `true`. -/
theorem c4_fail_open_config (e : List Char) (data : Snapshot) (d : ℤ) :
    (e.all Char.isWhitespace = true → evaluate_kline_strategy e data d = true) ∧
    (e.all Char.isWhitespace = false →
      parsePyExpr (opReplace (expand_repeat_expression e)) = none →
      evaluate_kline_strategy e data d = false) := by
  constructor
  · intro h
    simp [evaluate_kline_strategy, h]
  · intro h hp
    simp only [evaluate_kline_strategy, h, Bool.false_eq_true, if_false]
    cases hany : (maScanAll (expand_repeat_expression e)).any
        (fun t => (parse_ma_expression t data d).isNone) with
    | true => simp [hany]
    | false => simp [hany, hp]

/-- **C4 witness**: the amended claim at concrete inputs — a blank
expression is permissive, the unparsable `"abc"` is not. -/
theorem c4_fail_open_config_witness :
    evaluate_kline_strategy " ".toList ⟨[], [], []⟩ 0 = true ∧
    evaluate_kline_strategy "abc".toList ⟨[], [], []⟩ 0 = false :=
  ⟨(c4_fail_open_config " ".toList ⟨[], [], []⟩ 0).1 (by decide),
   (c4_fail_open_config "abc".toList ⟨[], [], []⟩ 0).2 (by decide) (by decide)⟩

/-- **C3** (fail-closed technical trigger) — the code violates the
claim.  With a 3-bar daily series, the `D5MA` term's rolling window is
incomplete, so its resolution yields the float `NaN` — not `None` — and
survives the only-`None` early check in `evaluate_kline_strategy`; it is
substituted into the `eval` text as the undefined name `nan`, which the
true left disjunct of `1 > 0 || D5MA > 1` short-circuits past, so the
whole expression evaluates to **true**, not false as the claim
requires.  (The `None` path — missing frame, or fewer than `offset+1`
bars before the date — is fail-closed as claimed.) -/
theorem c3_fail_closed_code_bug :
    parse_ma_expression "D5MA".toList
      ⟨[⟨1, 10, 0⟩, ⟨2, 11, 0⟩, ⟨3, 12, 0⟩], [], []⟩ 3 = some PyFloat.nan ∧
    "D5MA".toList ∈ maScanAll (expand_repeat_expression "1 > 0 || D5MA > 1".toList) ∧
    evaluate_kline_strategy "1 > 0 || D5MA > 1".toList
      ⟨[⟨1, 10, 0⟩, ⟨2, 11, 0⟩, ⟨3, 12, 0⟩], [], []⟩ 3 = true ∧
    evaluate_kline_strategy "D5MA > 1".toList
      ⟨[⟨1, 10, 0⟩, ⟨2, 11, 0⟩, ⟨3, 12, 0⟩], [], []⟩ 3 = false := by
  refine ⟨by decide, by decide, ?_, ?_⟩ <;> decide

/-- **C7** (forced end-of-run closure).  On a nonempty replay window the
run always ends flat: if the day loop ends flat the result is the loop
state itself, and if it ends holding, the forced close succeeds (the
close at the window's last date always resolves) and appends exactly one
further trade, whose reason is the backtest-end reason. -/
theorem c7_forced_closure (cfg : Config) (daily weekly monthly : List Bar) (cutoff : ℤ)
    (hne : windowOf daily cutoff ≠ []) :
    (run_backtest cfg daily weekly monthly cutoff).position = none ∧
    ((loopState cfg daily weekly monthly cutoff).position = none →
      run_backtest cfg daily weekly monthly cutoff =
        loopState cfg daily weekly monthly cutoff) ∧
    (∀ pos, (loopState cfg daily weekly monthly cutoff).position = some pos →
      ∃ tr, (run_backtest cfg daily weekly monthly cutoff).trades =
          (loopState cfg daily weekly monthly cutoff).trades ++ [tr] ∧
        tr.sellReason = .backtestEnd) := by
  have hdne : daily ≠ [] := by
    rintro rfl
    exact hne (by simp [windowOf])
  rcases lastDateOf_mem hne with ⟨b, hbw, hbd⟩
  have hbdaily : b ∈ daily := (List.mem_filter.mp hbw).1
  rcases get_close_price_isSome hbdaily (le_of_eq hbd) with ⟨q, hq⟩
  rcases hdaily : daily with _ | ⟨d0, dl⟩
  · exact absurd hdaily hdne
  rw [← hdaily]
  have hrun : run_backtest cfg daily weekly monthly cutoff =
      (match (loopState cfg daily weekly monthly cutoff).position with
       | none => loopState cfg daily weekly monthly cutoff
       | some _ =>
         match get_close_price daily (lastDateOf (windowOf daily cutoff)) 0 with
         | none => loopState cfg daily weekly monthly cutoff
         | some lastPrice =>
           execute_sell (lastDateOf (windowOf daily cutoff)) lastPrice .backtestEnd
             (loopState cfg daily weekly monthly cutoff)) := by
    conv_lhs => rw [hdaily]
    rw [run_backtest]
    rw [if_neg (hdaily ▸ hne)]
    rw [← hdaily]
  rcases hls : (loopState cfg daily weekly monthly cutoff).position with _ | pos
  · rw [hrun, hls]
    refine ⟨hls, fun _ => rfl, fun pos hp => ?_⟩
    exact absurd hp (by simp)
  · rw [hrun, hls, hq]
    refine ⟨?_, ?_, ?_⟩
    · simp only [execute_sell, hls]
    · intro hnone; exact absurd hnone (by simp)
    · intro pos2 hp2
      simp only [execute_sell, hls]
      exact ⟨_, rfl, rfl⟩

/-- **C7 witness**: a concrete two-bar replay (which ends holding after
the loop, since the second day shows no sell trigger) ends flat with a
final backtest-end trade. -/
theorem c7_forced_closure_witness :
    windowOf [⟨1, 10, 0⟩, ⟨2, 10, 0⟩] 0 ≠ [] ∧
    (run_backtest ⟨[], [], 5, 10, 60⟩ [⟨1, 10, 0⟩, ⟨2, 10, 0⟩] [] [] 0).position = none :=
  ⟨by decide,
   (c7_forced_closure ⟨[], [], 5, 10, 60⟩ [⟨1, 10, 0⟩, ⟨2, 10, 0⟩] [] [] 0 (by decide)).1⟩

/-- **C10** (capital non-negativity).  When every close in the daily
series is strictly positive, the engine's capital is nonnegative after
every prefix of the replay (hence after every buy and sell execution)
and in the final state: a buy never costs more than the capital at hand
and a sell only adds revenue. -/
theorem c10_capital_nonneg (cfg : Config) (daily weekly monthly : List Bar) (cutoff : ℤ)
    (hpos : ∀ b ∈ daily, 0 < b.close) :
    (∀ k, 0 ≤ (((windowOf daily cutoff).take k).foldl
      (stepBar cfg daily weekly monthly) initState).capital) ∧
    0 ≤ (run_backtest cfg daily weekly monthly cutoff).capital := by
  have hinit : 0 ≤ initState.capital ∧
      ∀ pos, initState.position = some pos → 0 ≤ pos.shares :=
    ⟨by norm_num [initState], fun pos hp => absurd hp (by simp [initState])⟩
  constructor
  · intro k
    exact (foldl_inv cfg daily weekly monthly hpos ((windowOf daily cutoff).take k)
      initState hinit).1
  · rcases hdaily : daily with _ | ⟨d0, dl⟩
    · simp only [run_backtest]
      norm_num [initState]
    · rw [← hdaily]
      have hloop : 0 ≤ (loopState cfg daily weekly monthly cutoff).capital ∧
          ∀ pos, (loopState cfg daily weekly monthly cutoff).position = some pos →
            0 ≤ pos.shares :=
        foldl_inv cfg daily weekly monthly hpos (windowOf daily cutoff) initState hinit
      by_cases hw : windowOf daily cutoff = []
      · rw [hdaily] at hw ⊢
        simp only [run_backtest, if_pos hw]
        norm_num [initState]
      · have hrun : run_backtest cfg daily weekly monthly cutoff =
            (match (loopState cfg daily weekly monthly cutoff).position with
             | none => loopState cfg daily weekly monthly cutoff
             | some _ =>
               match get_close_price daily (lastDateOf (windowOf daily cutoff)) 0 with
               | none => loopState cfg daily weekly monthly cutoff
               | some lastPrice =>
                 execute_sell (lastDateOf (windowOf daily cutoff)) lastPrice .backtestEnd
                   (loopState cfg daily weekly monthly cutoff)) := by
          conv_lhs => rw [hdaily]
          rw [run_backtest]
          rw [if_neg (hdaily ▸ hw)]
          rw [← hdaily]
        rw [hrun]
        rcases hls : (loopState cfg daily weekly monthly cutoff).position with _ | pos
        · exact hloop.1
        · rcases hcp : get_close_price daily (lastDateOf (windowOf daily cutoff)) 0
              with _ | lp
          · exact hloop.1
          · have hlp : 0 < lp := get_close_price_pos hpos hcp
            have hshr : 0 ≤ pos.shares := hloop.2 pos hls
            simp only [execute_sell, hls]
            show (0 : ℚ) ≤ (loopState cfg daily weekly monthly cutoff).capital +
              (pos.shares : ℚ) * lp
            have : (0 : ℚ) ≤ (pos.shares : ℚ) * lp :=
              mul_nonneg (by exact_mod_cast hshr) (le_of_lt hlp)
            linarith [hloop.1]

/-- **C10 witness**: a concrete positive-price replay keeps capital
nonnegative. -/
theorem c10_capital_nonneg_witness :
    (∀ b ∈ ([⟨1, 10, 0⟩, ⟨31, 11, 0⟩] : List Bar), 0 < b.close) ∧
    0 ≤ (run_backtest ⟨[], [], 5, 10, 60⟩ [⟨1, 10, 0⟩, ⟨31, 11, 0⟩] [] [] 0).capital :=
  ⟨by decide,
   (c10_capital_nonneg ⟨[], [], 5, 10, 60⟩ [⟨1, 10, 0⟩, ⟨31, 11, 0⟩] [] [] 0 (by decide)).2⟩

theorem upTo_upTo {c d : ℤ} (h : c ≤ d) (l : List Bar) : upTo c (upTo d l) = upTo c l := by
  simp only [upTo, List.filter_filter]
  refine List.filter_congr fun b _ => ?_
  by_cases hb : b.date ≤ c
  · simp [hb, le_trans hb h]
  · simp [hb]

theorem decisionAux_none {cfg : Config} {w m daily : List Bar} {d : ℤ} {l : List Bar}
    (h : ∀ b ∈ l, b.date ≠ d) :
    ∀ st, decisionAux cfg daily w m d l st = none := by
  induction l with
  | nil => intro st; rfl
  | cons b t ih =>
    intro st
    simp only [decisionAux, if_neg (h b (by simp))]
    exact ih (fun x hx => h x (by simp [hx])) _

theorem listMinD_eq_self {a : ℤ} {xs : List ℤ} (h : ∀ x ∈ xs, a ≤ x) :
    listMinD a xs = a := by
  induction xs generalizing a with
  | nil => rfl
  | cons x xs ih =>
    rw [listMinD, min_eq_left (h x (by simp))]
    exact ih fun y hy => h y (by simp [hy])

theorem upTo_cons_of_sorted {b0 : Bar} {rest : List Bar} {d : ℤ}
    (hs : sortedByDate (b0 :: rest)) (hne : upTo d (b0 :: rest) ≠ []) :
    b0.date ≤ d ∧ upTo d (b0 :: rest) = b0 :: upTo d rest := by
  have hb0 : b0.date ≤ d := by
    by_contra hgt
    push_neg at hgt
    refine hne (List.filter_eq_nil_iff.mpr fun x hx => ?_)
    rcases List.mem_cons.mp hx with rfl | hx2
    · simp; omega
    · have := (List.pairwise_cons.mp hs).1 x hx2
      simp; omega
  exact ⟨hb0, by simp [upTo, hb0]⟩

theorem startDate_trunc {daily : List Bar} {cutoff d : ℤ}
    (hs : sortedByDate daily) (hne : upTo d daily ≠ []) :
    startDate (upTo d daily) cutoff = startDate daily cutoff := by
  cases daily with
  | nil => rfl
  | cons b0 rest =>
    rcases upTo_cons_of_sorted hs hne with ⟨hb0, hcons⟩
    rw [hcons]
    have hmin1 : listMinD b0.date ((upTo d rest).map (·.date)) = b0.date := by
      refine listMinD_eq_self fun x hx => ?_
      rcases List.mem_map.mp hx with ⟨y, hy, hyd⟩
      have := (List.pairwise_cons.mp hs).1 y (List.mem_filter.mp hy).1
      omega
    have hmin2 : listMinD b0.date (rest.map (·.date)) = b0.date := by
      refine listMinD_eq_self fun x hx => ?_
      rcases List.mem_map.mp hx with ⟨y, hy, hyd⟩
      have := (List.pairwise_cons.mp hs).1 y hy
      omega
    rw [startDate, startDate, hmin1, hmin2]

theorem windowOf_trunc {daily : List Bar} {cutoff d : ℤ}
    (hs : sortedByDate daily) (hne : upTo d daily ≠ []) :
    windowOf (upTo d daily) cutoff = upTo d (windowOf daily cutoff) := by
  rw [windowOf, windowOf, startDate_trunc hs hne]
  rw [upTo, upTo, List.filter_filter, List.filter_filter]
  exact List.filter_congr fun b _ => by rw [Bool.and_comm]

theorem decisionAux_trunc (cfg : Config) (w m daily : List Bar) (d : ℤ) :
    ∀ l : List Bar, List.Pairwise (fun a b : Bar => a.date < b.date) l →
      ∀ st, decisionAux cfg daily w m d l st =
        decisionAux cfg (upTo d daily) (upTo d w) (upTo d m) d (upTo d l) st := by
  intro l
  induction l with
  | nil => intro _ st; rfl
  | cons b t ih =>
    intro hs st
    have hst := hs.of_cons
    by_cases hbd : b.date ≤ d
    · have hcons : upTo d (b :: t) = b :: upTo d t := by simp [upTo, hbd]
      rw [hcons]
      have hsnap : truncSnap (upTo d daily) (upTo d w) (upTo d m) b.date
          = truncSnap daily w m b.date := by
        simp only [truncSnap]
        rw [upTo_upTo hbd, upTo_upTo hbd, upTo_upTo hbd]
      by_cases hbeq : b.date = d
      · simp only [decisionAux, hsnap, if_pos hbeq]
      · simp only [decisionAux, hsnap, if_neg hbeq]
        exact ih hst _
    · have hgt : ∀ x ∈ b :: t, d < x.date := by
        intro x hx
        rcases List.mem_cons.mp hx with rfl | hx2
        · omega
        · have := (List.pairwise_cons.mp hs).1 x hx2
          omega
      have hempty : upTo d (b :: t) = [] := by
        refine List.filter_eq_nil_iff.mpr fun x hx => ?_
        have := hgt x hx
        simp
        omega
      rw [hempty]
      rw [decisionAux_none fun x hx => by have := hgt x hx; omega]
      rfl

theorem decisionAt_trunc (cfg : Config) (w m daily : List Bar) (cutoff d : ℤ)
    (hs : sortedByDate daily) :
    decisionAt cfg daily w m cutoff d =
      decisionAt cfg (upTo d daily) (upTo d w) (upTo d m) cutoff d := by
  rcases hdaily : daily with _ | ⟨b0, rest⟩
  · rfl
  rw [← hdaily]
  by_cases hud : upTo d daily = []
  · rw [hud]
    have hgt : ∀ x ∈ daily, ¬x.date ≤ d := by
      intro x hx
      have := List.filter_eq_nil_iff.mp hud x hx
      simpa using this
    have hnone : ∀ x ∈ windowOf daily cutoff, x.date ≠ d := by
      intro x hx
      have hmem : x ∈ daily := (List.mem_filter.mp hx).1
      have := hgt x hmem
      omega
    rw [hdaily]
    show decisionAux cfg (b0 :: rest) w m d (windowOf (b0 :: rest) cutoff) initState = none
    rw [← hdaily]
    exact decisionAux_none hnone initState
  · have hwin := @windowOf_trunc daily cutoff d hs hud
    rcases hud2 : upTo d daily with _ | ⟨c0, crest⟩
    · exact absurd hud2 hud
    rw [← hud2]
    have hlhs : decisionAt cfg daily w m cutoff d =
        decisionAux cfg daily w m d (windowOf daily cutoff) initState := by
      rw [hdaily]; rfl
    have hrhs : decisionAt cfg (upTo d daily) (upTo d w) (upTo d m) cutoff d =
        decisionAux cfg (upTo d daily) (upTo d w) (upTo d m) d
          (windowOf (upTo d daily) cutoff) initState := by
      rw [hud2]; rfl
    rw [hlhs, hrhs, hwin]
    have hsorted : List.Pairwise (fun a b : Bar => a.date < b.date) (windowOf daily cutoff) :=
      List.Pairwise.sublist (List.filter_sublist daily) hs
    exact decisionAux_trunc cfg w m daily d (windowOf daily cutoff) hsorted initState

/-- **C1** (no-lookahead).  Two replays whose daily/weekly/monthly series
agree on all bars with date `≤ d` (and share the configuration and the
cutoff) make the same decision at simulation date `d`: the decision at
`d` only ever reads the date-truncated views, and the engine state
reaching `d` was built from bars at earlier dates, so mutating any bar
dated after `d` cannot change it.  Strict date-sortedness is the data
model's ordering guarantee. -/
theorem c1_no_lookahead (cfg : Config) (cutoff d : ℤ) (d1 d2 w1 w2 m1 m2 : List Bar)
    (hs1 : sortedByDate d1) (hs2 : sortedByDate d2)
    (hd : upTo d d1 = upTo d d2) (hw : upTo d w1 = upTo d w2) (hm : upTo d m1 = upTo d m2) :
    decisionAt cfg d1 w1 m1 cutoff d = decisionAt cfg d2 w2 m2 cutoff d := by
  rw [decisionAt_trunc cfg w1 m1 d1 cutoff d hs1, decisionAt_trunc cfg w2 m2 d2 cutoff d hs2,
    hd, hw, hm]

/-- **C1 witness**: two daily series that agree up to date 3 but differ
beyond it yield the same decision at date 3. -/
theorem c1_no_lookahead_witness :
    sortedByDate [⟨1, 10, 0⟩, ⟨2, 11, 0⟩, ⟨5, 99, 7⟩] ∧
    upTo 3 [⟨1, 10, 0⟩, ⟨2, 11, 0⟩, ⟨5, 99, 7⟩] = upTo 3 [⟨1, 10, 0⟩, ⟨2, 11, 0⟩, ⟨7, 1, 3⟩] ∧
    decisionAt ⟨[], [], 5, 10, 60⟩ [⟨1, 10, 0⟩, ⟨2, 11, 0⟩, ⟨5, 99, 7⟩] [] [] 0 3 =
      decisionAt ⟨[], [], 5, 10, 60⟩ [⟨1, 10, 0⟩, ⟨2, 11, 0⟩, ⟨7, 1, 3⟩] [] [] 0 3 :=
  ⟨by rw [sortedByDate]; decide, by decide,
   c1_no_lookahead ⟨[], [], 5, 10, 60⟩ 0 3 _ _ _ _ _ _
     (by rw [sortedByDate]; decide) (by rw [sortedByDate]; decide)
     (by decide) (by decide) (by decide)⟩

theorem digit_innerOK {c : Char} (h : isDigitC c = true) : innerOK c = true := by
  have h1 : ¬c = '(' := by rintro rfl; exact absurd h (by decide)
  have h2 : ¬c = ')' := by rintro rfl; exact absurd h (by decide)
  simp [innerOK, h1, h2]

theorem digit_not_ws {c : Char} (h : isDigitC c = true) : c.isWhitespace = false := by
  by_contra hw
  simp only [Bool.not_eq_false] at hw
  simp [Char.isWhitespace] at hw
  rcases hw with ((hw | hw) | hw) | hw <;> subst hw <;> exact absurd h (by decide)

theorem innerOK_not_paren {c : Char} (h : innerOK c = true) : ¬c = '(' := by
  rintro rfl
  exact absurd h (by decide)

theorem digitChar_digit {n : Nat} (h : n < 10) : isDigitC (digitChar n) = true := by
  interval_cases n <;> decide

theorem natDigitsAux_digits : ∀ f n, ∀ c ∈ natDigitsAux f n, isDigitC c = true := by
  intro f
  induction f with
  | zero => intro n c hc; exact absurd hc (List.not_mem_nil c)
  | succ f ih =>
    intro n c hc
    rw [natDigitsAux] at hc
    by_cases hn : n < 10
    · rw [if_pos hn] at hc
      rcases List.mem_singleton.mp hc with rfl
      exact digitChar_digit hn
    · rw [if_neg hn] at hc
      rcases List.mem_append.mp hc with hc2 | hc2
      · exact ih (n / 10) c hc2
      · rcases List.mem_singleton.mp hc2 with rfl
        exact digitChar_digit (Nat.mod_lt _ (by norm_num))

theorem natDigits_digits {n : Nat} {c : Char} (hc : c ∈ natDigits n) : isDigitC c = true :=
  natDigitsAux_digits (n + 1) n c hc

/-- Structural facts about a successful MA-term match: the granularity is
the head character, the period digits really are digits, and the
remainder consists of input characters. -/
theorem maMatchAt_spec {c : Char} {r1 : List Char} {g : Char} {per : List Char}
    {off : Option (List Char)} {rest : List Char}
    (h : maMatchAt (c :: r1) = some (g, per, off, rest)) :
    g = c ∧ (∀ x ∈ per, isDigitC x = true) ∧ (∀ x ∈ rest, x ∈ r1) := by
  rw [maMatchAt] at h
  by_cases hdwm : isDWM c
  · rw [if_pos hdwm] at h
    by_cases hper : (r1.takeWhile isDigitC).isEmpty
    · rw [if_pos hper] at h; exact absurd h (by simp)
    · rw [if_neg hper] at h
      split at h
      case neg.h_2 => exact absurd h (by simp)
      case neg.h_1 c1 c2 r2 heq =>
        have hmemr2 : ∀ x ∈ r2, x ∈ r1 := by
          intro x hx
          refine List.mem_of_mem_drop (show x ∈ r1.drop (r1.takeWhile isDigitC).length from ?_)
          rw [heq]; simp [hx]
        split at h
        case isFalse => exact absurd h (by simp)
        case isTrue hma =>
          split at h
          case h_2 =>
            simp only [Option.some.injEq, Prod.mk.injEq] at h
            obtain ⟨h1, h2, _, h4⟩ := h
            subst h1 h2
            exact ⟨rfl, fun x hx => List.mem_takeWhile_imp hx,
              fun x hx => hmemr2 x (h4 ▸ hx)⟩
          case h_1 c3 r3 =>
            split at h
            case isFalse =>
              simp only [Option.some.injEq, Prod.mk.injEq] at h
              obtain ⟨h1, h2, _, h4⟩ := h
              subst h1 h2
              exact ⟨rfl, fun x hx => List.mem_takeWhile_imp hx,
                fun x hx => hmemr2 x (h4 ▸ hx)⟩
            case isTrue hc3 =>
              split at h
              · simp only [Option.some.injEq, Prod.mk.injEq] at h
                obtain ⟨h1, h2, _, h4⟩ := h
                subst h1 h2
                exact ⟨rfl, fun x hx => List.mem_takeWhile_imp hx,
                  fun x hx => hmemr2 x (h4 ▸ hx)⟩
              · simp only [Option.some.injEq, Prod.mk.injEq] at h
                obtain ⟨h1, h2, _, h4⟩ := h
                subst h1 h2
                refine ⟨rfl, fun x hx => List.mem_takeWhile_imp hx, fun x hx => ?_⟩
                have hx3 : x ∈ r3 := List.mem_of_mem_drop (h4 ▸ hx)
                exact hmemr2 x (List.mem_cons_of_mem c3 hx3)
  · rw [if_neg hdwm] at h; exact absurd h (by simp)

theorem maSubGo_innerOK (i : Nat) : ∀ (f : Nat) (cs : List Char),
    (∀ c ∈ cs, innerOK c = true) → ∀ c ∈ maSubGo i f cs, innerOK c = true := by
  intro f
  induction f with
  | zero => intro cs h c hc; exact h c hc
  | succ f ih =>
    intro cs h c hc
    cases cs with
    | nil => exact absurd hc (List.not_mem_nil c)
    | cons c0 cs0 =>
      rw [maSubGo] at hc
      cases hm : maMatchAt (c0 :: cs0) with
      | some v =>
        obtain ⟨g, per, off, rest⟩ := v
        rcases maMatchAt_spec hm with ⟨hg, hper, hrest⟩
        rw [hm] at hc
        rcases List.mem_append.mp hc with hc2 | hc2
        · rw [renderMA] at hc2
          rcases List.mem_cons.mp hc2 with rfl | hc3
          · exact h c (hg ▸ List.mem_cons_self c0 cs0)
          rcases List.mem_append.mp hc3 with hc4 | hc4
          · rcases List.mem_append.mp hc4 with hc5 | hc5
            · exact digit_innerOK (hper c hc5)
            · simp only [List.mem_cons, List.not_mem_nil, or_false] at hc5
              rcases hc5 with rfl | rfl | rfl <;> decide
          · exact digit_innerOK (natDigits_digits hc4)
        · exact ih rest (fun x hx => h x (List.mem_cons_of_mem c0 (hrest x hx))) c hc2
      | none =>
        rw [hm] at hc
        rcases List.mem_cons.mp hc with rfl | hc2
        · exact h c (List.mem_cons_self c cs0)
        · exact ih cs0 (fun x hx => h x (List.mem_cons_of_mem c0 hx)) c hc2

theorem maSubGo_ne_nil (i : Nat) : ∀ (f : Nat) (cs : List Char), cs ≠ [] →
    maSubGo i f cs ≠ [] := by
  intro f cs h
  cases f with
  | zero => exact h
  | succ f =>
    cases cs with
    | nil => exact absurd rfl h
    | cons c0 cs0 =>
      rw [maSubGo]
      cases hm : maMatchAt (c0 :: cs0) with
      | some v => obtain ⟨g, per, off, rest⟩ := v; simp [renderMA]
      | none => simp

theorem maOffsetSub_innerOK {i : Nat} {cs : List Char}
    (h : ∀ c ∈ cs, innerOK c = true) : ∀ c ∈ maOffsetSub i cs, innerOK c = true :=
  maSubGo_innerOK i cs.length cs h

theorem maOffsetSub_ne_nil {i : Nat} {cs : List Char} (h : cs ≠ []) : maOffsetSub i cs ≠ [] :=
  maSubGo_ne_nil i cs.length cs h

theorem containsRepeatMatch_append {l t : List Char} (h : ∀ c ∈ l, ¬c = '(') :
    containsRepeatMatch (l ++ t) = containsRepeatMatch t := by
  induction l with
  | nil => rfl
  | cons c l ih =>
    have hm : repeatMatchAt (c :: (l ++ t)) = none := by
      rw [repeatMatchAt, if_neg (h c (List.mem_cons_self c l))]
    show ((repeatMatchAt (c :: (l ++ t))).isSome || containsRepeatMatch (l ++ t)) =
      containsRepeatMatch t
    rw [hm, ih fun x hx => h x (List.mem_cons_of_mem c hx)]
    rfl

theorem containsRepeatMatch_block {body t : List Char} (hb : body ≠ [])
    (hbok : ∀ c ∈ body, innerOK c = true)
    (ht : ∀ c r, t.dropWhile Char.isWhitespace = c :: r → ¬c = '*') :
    containsRepeatMatch ('(' :: body ++ ')' :: t) = containsRepeatMatch t := by
  have htake : (body ++ ')' :: t).takeWhile innerOK = body := by
    rw [List.takeWhile_append_of_pos hbok]
    simp [List.takeWhile_cons, innerOK]
  have hm : repeatMatchAt ('(' :: (body ++ ')' :: t)) = none := by
    rw [repeatMatchAt, if_pos rfl, htake]
    rw [if_neg (by simp [hb] : ¬body.isEmpty = true)]
    rw [List.drop_left body (')' :: t)]
    rcases htd : t.dropWhile Char.isWhitespace with _ | ⟨c2, r5⟩
    · simp [htd]
    · simp [htd, ht c2 r5 htd]
  show ((repeatMatchAt ('(' :: (body ++ ')' :: t))).isSome ||
    containsRepeatMatch (body ++ ')' :: t)) = containsRepeatMatch t
  rw [hm]
  simp only [Option.isSome_none, Bool.false_or]
  rw [containsRepeatMatch_append fun c hc => innerOK_not_paren (hbok c hc)]
  show ((repeatMatchAt (')' :: t)).isSome || containsRepeatMatch t) = containsRepeatMatch t
  rw [show repeatMatchAt (')' :: t) = none from by rw [repeatMatchAt]; exact if_neg (by decide)]
  rfl

theorem repeatSubGo_nil : ∀ f, repeatSubGo f [] = [] := by
  intro f; cases f <;> rfl

theorem repeatSubPass_eq_self {cs : List Char} (h : containsRepeatMatch cs = false) :
    repeatSubPass cs = cs := repeatSubGo_eq_self h _

theorem containsRepeatMatch_joinAnd : ∀ parts : List (List Char),
    (∀ p ∈ parts, ∃ body, p = '(' :: body ++ [')'] ∧ body ≠ [] ∧
      ∀ c ∈ body, innerOK c = true) →
    containsRepeatMatch (joinAnd parts) = false := by
  intro parts
  induction parts with
  | nil => intro _; rfl
  | cons p rest ih =>
    intro h
    rcases h p (List.mem_cons_self p rest) with ⟨body, hp, hbne, hbok⟩
    cases rest with
    | nil =>
      rw [show joinAnd [p] = p from rfl, hp]
      rw [show ('(' : Char) :: body ++ [')'] = '(' :: body ++ ')' :: ([] : List Char) from
        by simp]
      rw [containsRepeatMatch_block hbne hbok (by intro c r hcr; simp at hcr)]
      rfl
    | cons q rest2 =>
      rw [show joinAnd (p :: q :: rest2) =
        p ++ ' ' :: '&' :: '&' :: ' ' :: joinAnd (q :: rest2) from rfl, hp]
      rw [show ('(' :: body ++ [')']) ++ ' ' :: '&' :: '&' :: ' ' :: joinAnd (q :: rest2)
          = '(' :: body ++ ')' :: (' ' :: '&' :: '&' :: ' ' :: joinAnd (q :: rest2)) from
        by simp]
      rw [containsRepeatMatch_block hbne hbok ?hstar]
      case hstar =>
        intro c r hcr
        rw [List.dropWhile_cons, if_pos (by decide), List.dropWhile_cons,
          if_neg (by decide)] at hcr
        rcases List.cons.injEq _ _ _ _ ▸ hcr with ⟨rfl, -⟩
        decide
      rw [show (' ' :: '&' :: '&' :: ' ' :: joinAnd (q :: rest2))
          = [' ', '&', '&', ' '] ++ joinAnd (q :: rest2) from rfl]
      rw [containsRepeatMatch_append (by decide)]
      exact ih fun x hx => h x (List.mem_cons_of_mem p hx)

theorem expandParts_shape {E : List Char} (hE : E ≠ [])
    (hEok : ∀ c ∈ E, innerOK c = true) (n : Nat) :
    ∀ p ∈ expandParts E n, ∃ body, p = '(' :: body ++ [')'] ∧ body ≠ [] ∧
      ∀ c ∈ body, innerOK c = true := by
  intro p hp
  rw [expandParts] at hp
  rcases List.mem_map.mp hp with ⟨i, _, hpi⟩
  by_cases hi0 : i = 0
  · rw [if_pos hi0] at hpi
    exact ⟨E, hpi.symm, hE, hEok⟩
  · rw [if_neg hi0] at hpi
    exact ⟨maOffsetSub i E, hpi.symm, maOffsetSub_ne_nil hE, maOffsetSub_innerOK hEok⟩

theorem repeatMatchAt_canonical {E ds : List Char} (hE : E ≠ [])
    (hEok : ∀ c ∈ E, innerOK c = true) (hds : ds ≠ [])
    (hdsd : ∀ c ∈ ds, isDigitC c = true) :
    repeatMatchAt ('(' :: E ++ ')' :: ' ' :: '*' :: ' ' :: ds) = some (E, ds, []) := by
  have htake : (E ++ ')' :: ' ' :: '*' :: ' ' :: ds).takeWhile innerOK = E := by
    rw [List.takeWhile_append_of_pos hEok]
    simp [List.takeWhile_cons, innerOK]
  have hdse : ds.isEmpty = false := by simp [hds]
  have hdw : (' ' :: '*' :: ' ' :: ds).dropWhile Char.isWhitespace = '*' :: ' ' :: ds := by
    rw [List.dropWhile_cons, if_pos (by decide), List.dropWhile_cons, if_neg (by decide)]
  have hdw2 : (' ' :: ds).dropWhile Char.isWhitespace = ds := by
    rw [List.dropWhile_cons, if_pos (by decide)]
    cases ds with
    | nil => rfl
    | cons d0 ds0 =>
      rw [List.dropWhile_cons,
        if_neg (by simp [digit_not_ws (hdsd d0 (List.mem_cons_self d0 ds0))])]
  have htakeds : ds.takeWhile isDigitC = ds := by
    rw [show ds.takeWhile isDigitC = (ds ++ []).takeWhile isDigitC from by simp]
    rw [List.takeWhile_append_of_pos hdsd]
    simp
  show repeatMatchAt ('(' :: (E ++ ')' :: ' ' :: '*' :: ' ' :: ds)) = some (E, ds, [])
  rw [repeatMatchAt, if_pos rfl, htake]
  rw [if_neg (by simp [hE] : ¬E.isEmpty = true)]
  rw [List.drop_left E (')' :: ' ' :: '*' :: ' ' :: ds)]
  simp [hdw, hdw2, htakeds, hdse, List.drop_length]

theorem repeatSubPass_canonical {E ds : List Char} (hE : E ≠ [])
    (hEok : ∀ c ∈ E, innerOK c = true) (hds : ds ≠ [])
    (hdsd : ∀ c ∈ ds, isDigitC c = true) :
    repeatSubPass ('(' :: E ++ ')' :: ' ' :: '*' :: ' ' :: ds) =
      joinAnd (expandParts E (digitsToNat ds)) := by
  rw [repeatSubPass]
  show repeatSubGo ('(' :: (E ++ ')' :: ' ' :: '*' :: ' ' :: ds)).length
      ('(' :: (E ++ ')' :: ' ' :: '*' :: ' ' :: ds)) = joinAnd (expandParts E (digitsToNat ds))
  rw [show ('(' :: (E ++ ')' :: ' ' :: '*' :: ' ' :: ds)).length
      = (E ++ ')' :: ' ' :: '*' :: ' ' :: ds).length + 1 from List.length_cons _ _]
  rw [repeatSubGo]
  rw [show repeatMatchAt ('(' :: (E ++ ')' :: ' ' :: '*' :: ' ' :: ds)) = some (E, ds, []) from
    repeatMatchAt_canonical hE hEok hds hdsd]
  simp [repeatSubGo_nil]

theorem expand_repeat_canonical {E ds : List Char} (hE : E ≠ [])
    (hEok : ∀ c ∈ E, innerOK c = true) (hds : ds ≠ [])
    (hdsd : ∀ c ∈ ds, isDigitC c = true) :
    expand_repeat_expression ('(' :: E ++ ')' :: ' ' :: '*' :: ' ' :: ds) =
      joinAnd (expandParts E (digitsToNat ds)) := by
  have hnomatch : containsRepeatMatch (joinAnd (expandParts E (digitsToNat ds))) = false :=
    containsRepeatMatch_joinAnd _ (expandParts_shape hE hEok _)
  rw [expand_repeat_expression]
  rw [show ('(' :: E ++ ')' :: ' ' :: '*' :: ' ' :: ds).length + 1
      = ((E ++ ')' :: ' ' :: '*' :: ' ' :: ds).length + 1) + 1 from by simp]
  rw [expandLoop, repeatSubPass_canonical hE hEok hds hdsd]
  by_cases heq : joinAnd (expandParts E (digitsToNat ds)) =
      '(' :: E ++ ')' :: ' ' :: '*' :: ' ' :: ds
  · rw [if_pos heq]
    exact heq.symm
  · rw [if_neg heq]
    rw [show (E ++ ')' :: ' ' :: '*' :: ' ' :: ds).length = (E.length + ds.length + 3) + 1 from
      by simp [List.length_append]; omega]
    rw [expandLoop, repeatSubPass_eq_self hnomatch, if_pos rfl]

/-- **C5** (repetition expansion).  (1) An expression containing no
repetition term is returned unchanged.  (2) A repetition term `(E) * N`
— `E` nonempty and free of parentheses (hence of nested repetition) and
of the repetition operator, `N` a positive decimal numeral — rewrites to
the conjunction `(E@0) && (E@1) && ... && (E@(N-1))`, where `@k` is the
source's own offset substitution (`maOffsetSub k`), which adds `k` to the
lookback offset of every MA term, additively with an explicit offset.
(3) The concrete case `(D5MA > D30MA) * 3` yields the 3-term conjunction
with offsets 0, 1, 2 on both sides, and `@k` is additive on explicit
offsets (`D5MA-1 @ 2 = D5MA-3`). -/
theorem c5_repeat_expansion :
    (∀ s : List Char, containsRepeatMatch s = false → expand_repeat_expression s = s) ∧
    (∀ E ds : List Char, E ≠ [] → (∀ c ∈ E, innerOK c = true) → '*' ∉ E →
      ds ≠ [] → (∀ c ∈ ds, isDigitC c = true) → 0 < digitsToNat ds →
      expand_repeat_expression ('(' :: E ++ ')' :: ' ' :: '*' :: ' ' :: ds) =
        joinAnd (expandParts E (digitsToNat ds))) ∧
    expand_repeat_expression "(D5MA > D30MA) * 3".toList =
      "(D5MA > D30MA) && (D5MA-1 > D30MA-1) && (D5MA-2 > D30MA-2)".toList ∧
    maOffsetSub 2 "D5MA-1".toList = "D5MA-3".toList ∧
    maOffsetSub 1 "D5MA".toList = "D5MA-1".toList := by
  refine ⟨fun s h => expand_eq_self h, ?_, by decide, by decide, by decide⟩
  intro E ds hE hEok _ hds hdsd _
  exact expand_repeat_canonical hE hEok hds hdsd

/-- **C5 witness**: the general statements at concrete inputs — an
expression without repetition is unchanged, and `(D5MA > D30MA) * 3`
(through the general rewrite) matches the expanded conjunction. -/
theorem c5_repeat_expansion_witness :
    expand_repeat_expression "D5MA > D30MA".toList = "D5MA > D30MA".toList ∧
    expand_repeat_expression ('(' :: "D5MA > D30MA".toList ++ ')' :: ' ' :: '*' :: ' ' :: ['3'])
      = joinAnd (expandParts "D5MA > D30MA".toList (digitsToNat ['3'])) :=
  ⟨c5_repeat_expansion.1 "D5MA > D30MA".toList (by decide),
   c5_repeat_expansion.2.1 "D5MA > D30MA".toList ['3'] (by decide) (by decide) (by decide)
     (by decide) (by decide) (by decide)⟩

end AStock
